import Mathlib

/-!
# Verification of the Arcam FMJ protocol core

A shallow embedding in Lean 4 of the protocol framing, request/response
correlation and throttling core of the `arcam_fmj` repository, together with
theorems settling the specification claims about that core.

Bytes are modelled as `Nat` (with explicit `< 256` bounds where the Python
`bytes` constructor would enforce them), byte strings as `List Nat`, ASCII
text as `List Char`, and fallible operations as `Except`/`Option` results.
Cooperatively scheduled stateful code (the throttle, the listener set, the
request timeout scopes) is embedded as explicit state-passing functions.
-/

namespace Arcam

/-! ## Enumerations

`enums.py` is not part of the sources available here (only its callers are).
The pieces the core needs are modelled from the spec. -/

/-- Modelled from the spec: `CommandCodes`/`AnswerCodes` members are "single
bytes reinterpreted as typed enumerations, with an escape path that
synthesizes a placeholder enum member for unrecognized byte values (never an
error)" and the placeholder "round-trips the raw byte".  We therefore model
an enum member by its raw byte value, and `from_int` as the (total)
identity on byte values. -/
def CommandCodes.from_int (value : Nat) : Nat := value

/-- Modelled from the spec: `AnswerCodes.from_int`, same byte-preserving
total conversion as `CommandCodes.from_int` (see there). -/
def AnswerCodes.from_int (value : Nat) : Nat := value

/-- Modelled from the spec: the generic "status update" success answer code
(the success case checked by `ClientBase.request`). -/
def AnswerCodes.STATUS_UPDATE : Nat := 0

/-- Modelled from the spec: the per-command zone-capability record; the
collaborator interface is `(command_id) -> {supports_multi_zone: bool,
send_only: bool}`.  `code` is the command's byte value, `zoneSupport` the
multi-zone capability flag and `sendOnly` the fire-and-forget flag. -/
structure CommandCode where
  code : Nat
  zoneSupport : Bool
  sendOnly : Bool
deriving DecidableEq

/-! ## Packet codec (`packets.py`)

Wire constants from `packets.py`: `PROTOCOL_STR = b"\x21"`,
`PROTOCOL_ETR = b"\x0d"`. -/

def PROTOCOL_STR : Nat := 0x21

def PROTOCOL_ETR : Nat := 0x0d

/-- Decode errors of the packet layer (`exceptions.py`): `InvalidPacket` and
`NullPacket` both derive directly from `ArcamException`; neither is a
subclass of the other. -/
inductive PacketError
  | invalidPacket
  | nullPacket
  | connectionFailed
  | unicodeError
deriving DecidableEq

/-- `ResponsePacket` (`packets.py`): zone, command code, answer code and
payload.  Enum-typed fields are carried as their raw byte values (see
`CommandCodes.from_int`). -/
structure ResponsePacket where
  zn : Nat
  cc : Nat
  ac : Nat
  data : List Nat
deriving DecidableEq

/-- `CommandPacket` (`packets.py`): zone, command code and payload. -/
structure CommandPacket where
  zn : Nat
  cc : Nat
  data : List Nat
deriving DecidableEq

/-- `ResponsePacket.to_bytes`:
`bytes([*PROTOCOL_STR, zn, cc, ac, len(data), *data, *PROTOCOL_ETR])`. -/
def ResponsePacket.to_bytes (p : ResponsePacket) : List Nat :=
  PROTOCOL_STR :: p.zn :: p.cc :: p.ac :: p.data.length :: (p.data ++ [PROTOCOL_ETR])

/-- `ResponsePacket.from_bytes`: rejects packets shorter than 6 bytes and
packets whose length byte `data[4]` differs from `len(data) - 6`; otherwise
reads zone, command, answer code and the payload slice `data[5 : 5 + data[4]]`. -/
def ResponsePacket.from_bytes (data : List Nat) : Except PacketError ResponsePacket :=
  if data.length < 6 then
    .error .invalidPacket
  else if data.getD 4 0 ≠ data.length - 6 then
    .error .invalidPacket
  else
    .ok ⟨data.getD 1 0, CommandCodes.from_int (data.getD 2 0),
      AnswerCodes.from_int (data.getD 3 0), (data.drop 5).take (data.getD 4 0)⟩

/-- `CommandPacket.to_bytes`:
`bytes([*PROTOCOL_STR, zn, cc, len(data), *data, *PROTOCOL_ETR])`. -/
def CommandPacket.to_bytes (p : CommandPacket) : List Nat :=
  PROTOCOL_STR :: p.zn :: p.cc :: p.data.length :: (p.data ++ [PROTOCOL_ETR])

/-- `CommandPacket.from_bytes`: rejects packets shorter than 5 bytes and
packets whose length byte `data[3]` differs from `len(data) - 5`; otherwise
reads zone, command and the payload slice `data[4 : 4 + data[3]]`. -/
def CommandPacket.from_bytes (data : List Nat) : Except PacketError CommandPacket :=
  if data.length < 5 then
    .error .invalidPacket
  else if data.getD 3 0 ≠ data.length - 5 then
    .error .invalidPacket
  else
    .ok ⟨data.getD 1 0, CommandCodes.from_int (data.getD 2 0),
      (data.drop 4).take (data.getD 3 0)⟩

/-- Validity of an in-memory `CommandPacket`: all fields fit in bytes and the
payload length fits in the single length byte (the domain on which the Python
`bytes(...)` construction in `to_bytes` is defined). -/
def CommandPacket.valid (p : CommandPacket) : Prop :=
  p.zn < 256 ∧ p.cc < 256 ∧ p.data.length ≤ 255 ∧ ∀ b ∈ p.data, b < 256

/-- Validity of an in-memory `ResponsePacket` (see `CommandPacket.valid`). -/
def ResponsePacket.valid (p : ResponsePacket) : Prop :=
  p.zn < 256 ∧ p.cc < 256 ∧ p.ac < 256 ∧ p.data.length ≤ 255 ∧ ∀ b ∈ p.data, b < 256

deriving instance DecidableEq for Except

instance (p : CommandPacket) : Decidable p.valid := by
  unfold CommandPacket.valid
  infer_instance

instance (p : ResponsePacket) : Decidable p.valid := by
  unfold ResponsePacket.valid
  infer_instance

theorem commandPacket_roundtrip (p : CommandPacket) :
    CommandPacket.from_bytes p.to_bytes = .ok p := by
  obtain ⟨zn, cc, data⟩ := p
  simp only [CommandPacket.from_bytes, CommandPacket.to_bytes, CommandCodes.from_int]
  have hlen : (PROTOCOL_STR :: zn :: cc :: data.length :: (data ++ [PROTOCOL_ETR])).length
      = data.length + 5 := by
    simp [List.length_append]
  rw [hlen]
  have h5 : ¬ (data.length + 5 < 5) := by omega
  simp only [h5, if_false, List.getD, List.getElem?_cons_succ, List.getElem?_cons_zero,
    Option.getD_some, List.drop, List.drop_succ_cons]
  have h2 : data.length + 5 - 5 = data.length := by omega
  rw [h2]
  simp [List.take_append_of_le_length, List.take_length]

theorem responsePacket_roundtrip (p : ResponsePacket) :
    ResponsePacket.from_bytes p.to_bytes = .ok p := by
  obtain ⟨zn, cc, ac, data⟩ := p
  simp only [ResponsePacket.from_bytes, ResponsePacket.to_bytes, CommandCodes.from_int,
    AnswerCodes.from_int]
  have hlen : (PROTOCOL_STR :: zn :: cc :: ac :: data.length :: (data ++ [PROTOCOL_ETR])).length
      = data.length + 6 := by
    simp [List.length_append]
  rw [hlen]
  have h6 : ¬ (data.length + 6 < 6) := by omega
  simp only [h6, if_false, List.getD, List.getElem?_cons_succ, List.getElem?_cons_zero,
    Option.getD_some, List.drop, List.drop_succ_cons]
  have h2 : data.length + 6 - 6 = data.length := by omega
  rw [h2]
  simp [List.take_append_of_le_length, List.take_length]

/-! ## AMX discovery codec (`packets.py`, `AmxDuetRequest` / `AmxDuetResponse`)

`AmxDuetResponse.from_bytes` checks the `AMXB` prefix and then extracts tag
groups with `re.findall(r"<(.+?)=(.+?)>", data[4:].decode("ASCII"))`.  We
embed the ASCII text as `List Char` and implement that specific regular
expression's `findall` semantics directly: a match consumes `<`, a shortest
nonempty newline-free group up to an `=` whose remainder completes, a
shortest nonempty newline-free group up to a `>`; `findall` scans left to
right and resumes after each non-overlapping match. -/

/-- Lazy scan of `(.+?)` followed by the literal `stop`, starting with the
group already holding at least one character: splits at the first occurrence
of `stop`; fails at end of input or on a newline (`.` does not match `\n`). -/
def lazyRest (stop : Char) : List Char → Option (List Char × List Char)
  | [] => none
  | c :: rest =>
    if c = '\n' then none
    else if c = stop then some ([], rest)
    else (lazyRest stop rest).map (fun p => (c :: p.1, p.2))

/-- `(.+?)stop`: first character is unconditionally group content (the group
is nonempty), then `lazyRest` finds the first `stop`. -/
def lazySplit (stop : Char) : List Char → Option (List Char × List Char)
  | [] => none
  | c :: rest =>
    if c = '\n' then none
    else (lazyRest stop rest).map (fun p => (c :: p.1, p.2))

/-- Body of the key group scan: extends the key lazily; at each `=` it
attempts to complete the match with `(.+?)>` and on failure backtracks by
treating the `=` as key content (`.` matches `=`). -/
def matchTagGo : List Char → Option (List Char × List Char × List Char)
  | [] => none
  | c :: rest =>
    if c = '\n' then none
    else if c = '=' then
      match lazySplit '>' rest with
      | some (v, r) => some ([], v, r)
      | none => (matchTagGo rest).map (fun t => (c :: t.1, t.2))
    else (matchTagGo rest).map (fun t => (c :: t.1, t.2))

/-- Attempt to match `(.+?)=(.+?)>` at the position just after a `<`:
returns `(key, value, rest after the closing >)`.  The first character is
unconditionally key content (the key group is nonempty and lazy matching
consumes one character before looking for `=`). -/
def matchTag : List Char → Option (List Char × List Char × List Char)
  | [] => none
  | c :: rest =>
    if c = '\n' then none
    else (matchTagGo rest).map (fun t => (c :: t.1, t.2))

/-- `re.findall(r"<(.+?)=(.+?)>", s)`: scan left to right; at each `<` try a
tag match and on success resume after the match (non-overlapping matches).
Fuel-driven so the definition evaluates by kernel reduction; each step
consumes at least one character, so `fuel = length` suffices. -/
def findTagsGo : Nat → List Char → List (List Char × List Char)
  | 0, _ => []
  | fuel + 1, s =>
    match s with
    | [] => []
    | c :: rest =>
      if c = '<' then
        match matchTag rest with
        | some (k, v, r) => (k, v) :: findTagsGo fuel r
        | none => findTagsGo fuel rest
      else findTagsGo fuel rest

def findTags (s : List Char) : List (List Char × List Char) :=
  findTagsGo s.length s

/-- Python `dict(pairs)`: later values override earlier ones for the same
key, the key keeps its first-insertion position. -/
def pyDictInsert (d : List (List Char × List Char)) (kv : List Char × List Char) :
    List (List Char × List Char) :=
  if d.any (fun p => p.1 = kv.1) then
    d.map (fun p => if p.1 = kv.1 then (p.1, kv.2) else p)
  else d ++ [kv]

def pyDict (pairs : List (List Char × List Char)) : List (List Char × List Char) :=
  pairs.foldl pyDictInsert []

/-- `AmxDuetResponse` (`packets.py`): an ordered mapping of string tags,
modelled as the underlying insertion-ordered association list of a Python
dict. -/
structure AmxDuetResponse where
  values : List (List Char × List Char)
deriving DecidableEq

/-- The tag-group part of the serialized form:
`"".join(f"<{key}={value}>" for key, value in values.items())`. -/
def renderTags (values : List (List Char × List Char)) : List Char :=
  values.flatMap fun kv => '<' :: kv.1 ++ '=' :: kv.2 ++ ['>']

/-- `AmxDuetResponse.to_bytes`:
`("AMXB" + "".join(f"<{key}={value}>" ...) + "\r").encode("ASCII")`,
over the ASCII text embedding. -/
def AmxDuetResponse.to_chars (p : AmxDuetResponse) : List Char :=
  ['A', 'M', 'X', 'B'] ++ renderTags p.values ++ ['\r']

/-- `AmxDuetResponse.from_bytes`: requires the `AMXB` prefix, then
`dict(re.findall(r"<(.+?)=(.+?)>", data[4:]))`. -/
def AmxDuetResponse.from_chars (data : List Char) : Except PacketError AmxDuetResponse :=
  match data with
  | 'A' :: 'M' :: 'X' :: 'B' :: rest => .ok ⟨pyDict (findTags rest)⟩
  | _ => .error .invalidPacket

/-- Well-formedness of a single tag entry: key and value nonempty, ASCII,
and free of the structural characters `<`, `>`, `=` and of newlines.
(Ampersands and other text characters are unconstrained.) -/
def amxEntryOk (kv : List Char × List Char) : Prop :=
  kv.1 ≠ [] ∧ kv.2 ≠ [] ∧
    (∀ c ∈ kv.1, c ≠ '<' ∧ c ≠ '>' ∧ c ≠ '=' ∧ c ≠ '\n' ∧ c.toNat < 128) ∧
    (∀ c ∈ kv.2, c ≠ '<' ∧ c ≠ '>' ∧ c ≠ '=' ∧ c ≠ '\n' ∧ c.toNat < 128)

/-- A tag list round-trips through the codec when every entry is
well-formed and keys are distinct. -/
def amxWellFormed (values : List (List Char × List Char)) : Prop :=
  (∀ kv ∈ values, amxEntryOk kv) ∧ (values.map Prod.fst).Nodup

instance amxEntryOkDecidable (kv : List Char × List Char) :
    Decidable (amxEntryOk kv) := by
  unfold amxEntryOk
  infer_instance

instance amxWellFormedDecidable (values : List (List Char × List Char)) :
    Decidable (amxWellFormed values) := by
  unfold amxWellFormed
  infer_instance

theorem lazyRest_append (stop : Char) (v rest : List Char) (hstop : stop ≠ '\n')
    (hv : ∀ c ∈ v, c ≠ '\n' ∧ c ≠ stop) :
    lazyRest stop (v ++ stop :: rest) = some (v, rest) := by
  induction v with
  | nil => simp [lazyRest, hstop]
  | cons c v ih =>
    have hc := hv c (by simp)
    simp only [List.cons_append, lazyRest, if_neg hc.1, if_neg hc.2, List.append_eq]
    rw [ih (fun x hx => hv x (by simp [hx]))]
    rfl

theorem lazySplit_append (stop : Char) (v rest : List Char) (hstop : stop ≠ '\n')
    (hne : v ≠ []) (hv : ∀ c ∈ v, c ≠ '\n' ∧ c ≠ stop) :
    lazySplit stop (v ++ stop :: rest) = some (v, rest) := by
  obtain ⟨c, v, rfl⟩ := List.exists_cons_of_ne_nil hne
  have hc := hv c (by simp)
  simp only [List.cons_append, lazySplit, if_neg hc.1, List.append_eq]
  rw [lazyRest_append stop v rest hstop (fun x hx => hv x (by simp [hx]))]
  rfl

theorem matchTagGo_append (k v rest : List Char)
    (hk : ∀ c ∈ k, c ≠ '\n' ∧ c ≠ '=')
    (hvne : v ≠ []) (hv : ∀ c ∈ v, c ≠ '\n' ∧ c ≠ '>') :
    matchTagGo (k ++ '=' :: v ++ '>' :: rest) = some (k, v, rest) := by
  induction k with
  | nil =>
    simp only [List.nil_append, matchTagGo, List.append_eq]
    rw [if_neg (show ¬ ('=' : Char) = '\n' by decide), if_pos trivial]
    rw [lazySplit_append '>' v rest (by decide) hvne hv]
  | cons c k ih =>
    have hc := hk c (by simp)
    simp only [List.cons_append, matchTagGo, if_neg hc.1, if_neg hc.2, List.append_eq]
    rw [ih (fun x hx => hk x (by simp [hx]))]
    rfl

theorem matchTag_append (k v rest : List Char)
    (hkne : k ≠ []) (hk : ∀ c ∈ k, c ≠ '\n' ∧ c ≠ '=')
    (hvne : v ≠ []) (hv : ∀ c ∈ v, c ≠ '\n' ∧ c ≠ '>') :
    matchTag (k ++ '=' :: v ++ '>' :: rest) = some (k, v, rest) := by
  obtain ⟨c, k, rfl⟩ := List.exists_cons_of_ne_nil hkne
  have hc := hk c (by simp)
  simp only [List.cons_append, matchTag, if_neg hc.1, List.append_eq]
  rw [matchTagGo_append k v rest (fun x hx => hk x (by simp [hx])) hvne hv]
  rfl

theorem findTagsGo_render (values : List (List Char × List Char))
    (wf : ∀ kv ∈ values, amxEntryOk kv) :
    ∀ fuel, (renderTags values).length + 1 ≤ fuel →
      findTagsGo fuel (renderTags values ++ ['\r']) = values := by
  induction values with
  | nil =>
    intro fuel hfuel
    match fuel, hfuel with
    | fuel + 1, _ =>
      simp only [renderTags, List.flatMap_nil, List.nil_append, findTagsGo, reduceIte]
      cases fuel <;> rfl
  | cons kv values ih =>
    intro fuel hfuel
    obtain ⟨k, v⟩ := kv
    have hwf := wf (k, v) (by simp)
    simp only [amxEntryOk] at hwf
    obtain ⟨hkne, hvne, hk, hv⟩ := hwf
    have hrender : renderTags ((k, v) :: values) ++ ['\r']
        = '<' :: (k ++ '=' :: v ++ '>' :: (renderTags values ++ ['\r'])) := by
      simp [renderTags, List.flatMap_cons, List.append_assoc]
    rw [hrender]
    have hlen : (renderTags ((k, v) :: values)).length
        = k.length + v.length + 3 + (renderTags values).length := by
      simp [renderTags, List.flatMap_cons, List.length_append]
      omega
    match fuel, hfuel with
    | fuel + 1, hfuel =>
      simp only [findTagsGo, reduceIte]
      rw [matchTag_append k v (renderTags values ++ ['\r']) hkne
        (fun c hc => ⟨(hk c hc).2.2.2.1, (hk c hc).2.2.1⟩) hvne
        (fun c hc => ⟨(hv c hc).2.2.2.1, (hv c hc).2.1⟩)]
      show (k, v) :: findTagsGo fuel (renderTags values ++ ['\r']) = (k, v) :: values
      rw [ih (fun x hx => wf x (by simp [hx])) fuel (by rw [hlen] at hfuel; omega)]

theorem findTags_render (values : List (List Char × List Char))
    (wf : ∀ kv ∈ values, amxEntryOk kv) :
    findTags (renderTags values ++ ['\r']) = values := by
  apply findTagsGo_render values wf
  simp [List.length_append]

theorem pyDict_append_of_nodup (pairs : List (List Char × List Char)) :
    ∀ acc, ((acc ++ pairs).map Prod.fst).Nodup →
      pairs.foldl pyDictInsert acc = acc ++ pairs := by
  induction pairs with
  | nil => intro acc _; simp
  | cons kv pairs ih =>
    intro acc hnd
    have hsplit : (acc.map Prod.fst ++ (kv.1 :: pairs.map Prod.fst)).Nodup := by
      simpa [List.map_append] using hnd
    have hdisj := (List.nodup_append.mp hsplit).2.2
    have hnotin : ¬ acc.any (fun p => p.1 = kv.1) := by
      intro hany
      rw [List.any_eq_true] at hany
      obtain ⟨p, hp, hpeq⟩ := hany
      have hpeq2 : p.1 = kv.1 := by simpa using hpeq
      exact hdisj (hpeq2 ▸ List.mem_map_of_mem Prod.fst hp) (by simp)
    have hstep : pyDictInsert acc kv = acc ++ [kv] := by
      simp only [pyDictInsert, if_neg hnotin]
    simp only [List.foldl_cons, hstep]
    rw [ih (acc ++ [kv]) (by simpa using hnd)]
    simp

theorem pyDict_of_nodup (pairs : List (List Char × List Char))
    (hnd : (pairs.map Prod.fst).Nodup) : pyDict pairs = pairs := by
  have := pyDict_append_of_nodup pairs [] (by simpa using hnd)
  simpa [pyDict] using this

theorem AmxDuetResponse.from_chars_amxb (rest : List Char) :
    AmxDuetResponse.from_chars ('A' :: 'M' :: 'X' :: 'B' :: rest)
      = .ok ⟨pyDict (findTags rest)⟩ := rfl

/-- Lossless round trip for `AmxDuetResponse` on well-formed tag maps, at the
ASCII text level. -/
theorem AmxDuetResponse.from_chars_to_chars (p : AmxDuetResponse)
    (h : amxWellFormed p.values) :
    AmxDuetResponse.from_chars p.to_chars = .ok p := by
  obtain ⟨values⟩ := p
  obtain ⟨hwf, hnd⟩ := h
  have hshape : AmxDuetResponse.to_chars ⟨values⟩
      = 'A' :: 'M' :: 'X' :: 'B' :: (renderTags values ++ ['\r']) := by
    simp [AmxDuetResponse.to_chars]
  rw [hshape, AmxDuetResponse.from_chars_amxb,
    findTags_render values hwf, pyDict_of_nodup values hnd]

/-- `bytes.decode("ASCII")`: fails (`UnicodeDecodeError`) on any byte outside
the 7-bit range, otherwise maps bytes to characters. -/
def decodeAscii (data : List Nat) : Option (List Char) :=
  if data.all (fun b => b < 128) then some (data.map Char.ofNat) else none

/-- `AmxDuetResponse.from_bytes` at the byte level: requires the `AMXB`
prefix on the raw bytes, decodes the remainder as ASCII, then
`dict(re.findall(r"<(.+?)=(.+?)>", ...))`. -/
def AmxDuetResponse.from_bytes (data : List Nat) : Except PacketError AmxDuetResponse :=
  if data.take 4 = [0x41, 0x4d, 0x58, 0x42] then
    match decodeAscii (data.drop 4) with
    | some text => .ok ⟨pyDict (findTags text)⟩
    | none => .error .unicodeError
  else
    .error .invalidPacket

/-- `AmxDuetResponse.to_bytes`: the ASCII encoding of `to_chars` (total on
ASCII-only tag maps, where Python's `encode("ASCII")` is defined). -/
def AmxDuetResponse.to_bytes (p : AmxDuetResponse) : List Nat :=
  p.to_chars.map Char.toNat

theorem renderTags_ascii (values : List (List Char × List Char))
    (wf : ∀ kv ∈ values, amxEntryOk kv) :
    ∀ c ∈ renderTags values ++ ['\r'], c.toNat < 128 := by
  intro c hc
  rw [List.mem_append] at hc
  rcases hc with hc | hc
  · rw [renderTags, List.mem_flatMap] at hc
    obtain ⟨kv, hkv, hmem⟩ := hc
    have hwf := wf kv hkv
    simp only [amxEntryOk] at hwf
    have hcases : c = '<' ∨ c ∈ kv.1 ∨ c = '=' ∨ c ∈ kv.2 ∨ c = '>' := by
      simp only [List.mem_cons, List.mem_append, List.mem_singleton] at hmem
      tauto
    rcases hcases with rfl | hmem2 | rfl | hmem2 | rfl
    · decide
    · exact (hwf.2.2.1 c hmem2).2.2.2.2
    · decide
    · exact (hwf.2.2.2 c hmem2).2.2.2.2
    · decide
  · simp only [List.mem_singleton] at hc
    subst hc
    decide

/-- Lossless round trip for `AmxDuetResponse` at the byte level, on
well-formed tag maps. -/
theorem amxResponse_bytes_roundtrip (p : AmxDuetResponse)
    (h : amxWellFormed p.values) :
    AmxDuetResponse.from_bytes p.to_bytes = .ok p := by
  obtain ⟨values⟩ := p
  obtain ⟨hwf, hnd⟩ := h
  have hascii := renderTags_ascii values hwf
  have hto : AmxDuetResponse.to_bytes ⟨values⟩
      = 0x41 :: 0x4d :: 0x58 :: 0x42 :: (renderTags values ++ ['\r']).map Char.toNat := by
    simp only [AmxDuetResponse.to_bytes, AmxDuetResponse.to_chars, List.cons_append,
      List.map_cons, List.nil_append]
    rfl
  rw [hto]
  have htake : (0x41 :: 0x4d :: 0x58 :: 0x42
      :: (renderTags values ++ ['\r']).map Char.toNat).take 4 = [0x41, 0x4d, 0x58, 0x42] := rfl
  have hmapl : ∀ L : List Char, (L.map Char.toNat).map Char.ofNat = L := by
    intro L
    induction L with
    | nil => rfl
    | cons c L ih => simp [ih, Char.ofNat_toNat]
  have hdec : decodeAscii ((renderTags values ++ ['\r']).map Char.toNat)
      = some (renderTags values ++ ['\r']) := by
    rw [decodeAscii, if_pos]
    · rw [hmapl]
    · rw [List.all_eq_true]
      intro b hb
      rw [List.mem_map] at hb
      obtain ⟨c, hc, rfl⟩ := hb
      simpa using hascii c hc
  rw [AmxDuetResponse.from_bytes, if_pos htake]
  show (match decodeAscii ((renderTags values ++ ['\r']).map Char.toNat) with
    | some text => Except.ok (AmxDuetResponse.mk (pyDict (findTags text)))
    | none => Except.error PacketError.unicodeError) = Except.ok ⟨values⟩
  rw [hdec]
  show (Except.ok ⟨pyDict (findTags (renderTags values ++ ['\r']))⟩
    : Except PacketError AmxDuetResponse) = Except.ok ⟨values⟩
  rw [findTags_render values hwf, pyDict_of_nodup values hnd]

/-- `AmxDuetRequest.from_bytes` (`packets.py`): accepts exactly `b"AMX\r"`. -/
def AmxDuetRequest.from_bytes (data : List Nat) : Except PacketError Unit :=
  if data = [0x41, 0x4d, 0x58, 0x0d] then .ok () else .error .invalidPacket

/-- `AmxDuetRequest.to_bytes`: the fixed probe `b"AMX\r"`. -/
def AmxDuetRequest.to_bytes : List Nat := [0x41, 0x4d, 0x58, 0x0d]

/-! ## Frame reader (`packets.py`, protocol I/O)

The inbound byte stream is a `List Nat`.  `reader.readexactly(n)` consumes
exactly `n` bytes or raises `IncompleteReadError` (normalized by
`_read_delimited` to `ConnectionFailed`); in particular `readexactly(1)` at
end of stream raises, so the `start == PROTOCOL_EOF` branch of the source is
unreachable and end of stream surfaces as `ConnectionFailed`.
`reader.readuntil(b"\r")` consumes up to and including the first `\r` or
raises `IncompleteReadError` at end of stream. -/

/-- `reader.readexactly(n)`: the first `n` bytes plus the remaining stream,
or `none` (`IncompleteReadError`) when fewer than `n` bytes remain. -/
def readExactly (n : Nat) (s : List Nat) : Option (List Nat × List Nat) :=
  if n ≤ s.length then some (s.take n, s.drop n) else none

/-- `reader.readuntil(PROTOCOL_ETR)`: the bytes up to and including the
first `0x0d`, plus the remaining stream; `none` when no `0x0d` remains. -/
def readUntilETR : List Nat → Option (List Nat × List Nat)
  | [] => none
  | b :: rest =>
    if b = PROTOCOL_ETR then some ([b], rest)
    else (readUntilETR rest).map (fun p => (b :: p.1, p.2))

/-- Result of one `_read_delimited` call: a framed byte blob plus the
unconsumed remainder of the stream, or an exception plus the remainder
(which the retry loops continue from). -/
inductive DelimResult
  | packet (bytes : List Nat) (rest : List Nat)
  | fail (e : PacketError) (rest : List Nat)
deriving DecidableEq

/-- `_read_delimited(reader, header_len)`: reads one start byte and then one
frame in one of the header variants (`\x21`-delimited, `\x01^AMX`-prefixed,
bare `AMX`-prefixed), raising `NullPacket` on a `0x00` start byte,
`InvalidPacket` on an unrecognized start byte, a wrong AMX header or a wrong
trailing byte, and `ConnectionFailed` on any incomplete read. -/
def readDelimited (headerLen : Nat) (s : List Nat) : DelimResult :=
  match s with
  | [] => .fail .connectionFailed []
  | start :: rest =>
    if start = PROTOCOL_STR then
      match readExactly (headerLen - 1) rest with
      | none => .fail .connectionFailed []
      | some (header, r1) =>
        match r1 with
        | [] => .fail .connectionFailed []
        | dataLen :: r2 =>
          match readExactly dataLen r2 with
          | none => .fail .connectionFailed []
          | some (data, r3) =>
            match r3 with
            | [] => .fail .connectionFailed []
            | etr :: r4 =>
              if etr ≠ PROTOCOL_ETR then .fail .invalidPacket r4
              else .packet (start :: header ++ dataLen :: data ++ [etr]) r4
    else if start = 0x01 then
      match readExactly 4 rest with
      | none => .fail .connectionFailed []
      | some (header, r1) =>
        if header ≠ [0x5e, 0x41, 0x4d, 0x58] then .fail .invalidPacket r1
        else
          match readUntilETR r1 with
          | none => .fail .connectionFailed []
          | some (data, r2) => .packet ([0x41, 0x4d, 0x58] ++ data) r2
    else if start = 0x41 then
      match readExactly 2 rest with
      | none => .fail .connectionFailed []
      | some (header, r1) =>
        if header ≠ [0x4d, 0x58] then .fail .invalidPacket r1
        else
          match readUntilETR r1 with
          | none => .fail .connectionFailed []
          | some (data, r2) => .packet (start :: header ++ data) r2
    else if start = 0x00 then
      .fail .nullPacket rest
    else
      .fail .invalidPacket rest

/-- A decoded inbound frame on the client side. -/
inductive RespFrame
  | resp (p : ResponsePacket)
  | amx (p : AmxDuetResponse)
deriving DecidableEq

/-- A decoded inbound frame on the server side. -/
inductive CmdFrame
  | cmd (p : CommandPacket)
  | amxReq
deriving DecidableEq

/-- `_read_response`: one `_read_delimited(reader, 4)` plus codec decode
(`AmxDuetResponse` for `AMX`-prefixed blobs, `ResponsePacket` otherwise). -/
def readResponseOnce (s : List Nat) : Except (PacketError × List Nat) (Option RespFrame × List Nat) :=
  match readDelimited 4 s with
  | .fail e rest => .error (e, rest)
  | .packet bytes rest =>
    if bytes = [] then .ok (none, rest)
    else if bytes.take 3 = [0x41, 0x4d, 0x58] then
      match AmxDuetResponse.from_bytes bytes with
      | .ok p => .ok (some (.amx p), rest)
      | .error e => .error (e, rest)
    else
      match ResponsePacket.from_bytes bytes with
      | .ok p => .ok (some (.resp p), rest)
      | .error e => .error (e, rest)

/-- `_read_command`: one `_read_delimited(reader, 3)` plus codec decode
(`AmxDuetRequest` for `AMX`-prefixed blobs, `CommandPacket` otherwise). -/
def readCommandOnce (s : List Nat) : Except (PacketError × List Nat) (Option CmdFrame × List Nat) :=
  match readDelimited 3 s with
  | .fail e rest => .error (e, rest)
  | .packet bytes rest =>
    if bytes = [] then .ok (none, rest)
    else if bytes.take 3 = [0x41, 0x4d, 0x58] then
      match AmxDuetRequest.from_bytes bytes with
      | .ok _ => .ok (some .amxReq, rest)
      | .error e => .error (e, rest)
    else
      match CommandPacket.from_bytes bytes with
      | .ok p => .ok (some (.cmd p), rest)
      | .error e => .error (e, rest)

/-- `read_response`: retry loop around `_read_response` that absorbs
`InvalidPacket` (`except InvalidPacket: continue`) and `NullPacket`
(`except NullPacket: continue`) and propagates everything else.  Fuel-driven;
every absorbed failure consumes at least one stream byte, so
`fuel = length + 1` suffices (see `readResponseGo_fuel`). -/
def readResponseGo : Nat → List Nat → Except PacketError (Option RespFrame)
  | 0, _ => .error .connectionFailed
  | fuel + 1, s =>
    match readResponseOnce s with
    | .ok (frame, _) => .ok frame
    | .error (.invalidPacket, rest) => readResponseGo fuel rest
    | .error (.nullPacket, rest) => readResponseGo fuel rest
    | .error (e, _) => .error e

def readResponse (s : List Nat) : Except PacketError (Option RespFrame) :=
  readResponseGo (s.length + 1) s

/-- `read_command`: retry loop around `_read_command` that absorbs
`InvalidPacket` (`except InvalidPacket: continue`) only; `NullPacket` is not
caught there and propagates. -/
def readCommandGo : Nat → List Nat → Except PacketError (Option CmdFrame)
  | 0, _ => .error .connectionFailed
  | fuel + 1, s =>
    match readCommandOnce s with
    | .ok (frame, _) => .ok frame
    | .error (.invalidPacket, rest) => readCommandGo fuel rest
    | .error (e, _) => .error e

def readCommand (s : List Nat) : Except PacketError (Option CmdFrame) :=
  readCommandGo (s.length + 1) s

theorem readExactly_some {n : Nat} {s a r : List Nat}
    (h : readExactly n s = some (a, r)) :
    a = s.take n ∧ r = s.drop n ∧ n ≤ s.length := by
  unfold readExactly at h
  split at h
  · cases h
    exact ⟨rfl, rfl, by assumption⟩
  · cases h

theorem readUntilETR_some {s d r : List Nat} (h : readUntilETR s = some (d, r)) :
    r.length < s.length := by
  induction s generalizing d r with
  | nil => simp [readUntilETR] at h
  | cons b rest ih =>
    rw [readUntilETR] at h
    split at h
    · cases h
      simp
    · cases hh : readUntilETR rest with
      | none => rw [hh] at h; cases h
      | some p =>
        rw [hh] at h
        cases h
        have := ih (d := p.1) (r := p.2) (by rw [hh])
        simp only [List.length_cons]
        omega

/-- Every `_read_delimited` outcome other than `ConnectionFailed` strictly
consumes stream bytes: the remainder handed to the retry loops is shorter
than the input. -/
theorem readDelimited_length (hl : Nat) (s : List Nat) :
    (∀ b r, readDelimited hl s = .packet b r → r.length < s.length) ∧
    (∀ e r, readDelimited hl s = .fail e r →
      e = .invalidPacket ∨ e = .nullPacket → r.length < s.length) := by
  cases s with
  | nil =>
    refine ⟨(fun b r h => by cases h), (fun e r h he => ?_)⟩
    rw [readDelimited.eq_def] at h
    cases h
    rcases he with h | h <;> cases h
  | cons start rest =>
    suffices hcore : ∀ res, readDelimited hl (start :: rest) = res →
        (∀ b r, res = .packet b r → r.length < rest.length + 1) ∧
        (∀ e r, res = .fail e r → e = .invalidPacket ∨ e = .nullPacket →
          r.length < rest.length + 1) by
      have h := hcore (readDelimited hl (start :: rest)) rfl
      simpa using h
    intro res hres
    rw [readDelimited.eq_def] at hres
    simp only [] at hres
    split_ifs at hres with h1 h2 h3 h4
    · -- start byte 0x21
      cases hx1 : readExactly (hl - 1) rest with
      | none =>
        rw [hx1] at hres
        simp only [] at hres
        subst hres
        exact ⟨(fun b r h => by cases h),
          (fun e r h he => by cases h; rcases he with h | h <;> cases h)⟩
      | some p1 =>
        obtain ⟨header, r1⟩ := p1
        rw [hx1] at hres
        simp only [] at hres
        obtain ⟨-, hr1, -⟩ := readExactly_some hx1
        have hr1len : r1.length ≤ rest.length := by
          subst hr1
          simp [List.length_drop]
        cases r1 with
        | nil =>
          simp only [] at hres
          subst hres
          exact ⟨(fun b r h => by cases h),
            (fun e r h he => by cases h; rcases he with h | h <;> cases h)⟩
        | cons dataLen r2 =>
          simp only [] at hres
          have hr2len : r2.length + 1 ≤ rest.length := by
            simp only [List.length_cons] at hr1len
            omega
          cases hx2 : readExactly dataLen r2 with
          | none =>
            rw [hx2] at hres
            simp only [] at hres
            subst hres
            exact ⟨(fun b r h => by cases h),
              (fun e r h he => by cases h; rcases he with h | h <;> cases h)⟩
          | some p2 =>
            obtain ⟨data, r3⟩ := p2
            rw [hx2] at hres
            simp only [] at hres
            obtain ⟨-, hr3, -⟩ := readExactly_some hx2
            have hr3len : r3.length ≤ r2.length := by
              subst hr3
              simp [List.length_drop]
            cases r3 with
            | nil =>
              simp only [] at hres
              subst hres
              exact ⟨(fun b r h => by cases h),
                (fun e r h he => by cases h; rcases he with h | h <;> cases h)⟩
            | cons etr r4 =>
              simp only [] at hres
              have hr4len : r4.length + 1 ≤ r2.length := by
                simp only [List.length_cons] at hr3len
                omega
              split_ifs at hres with hetr
              · -- wrong trailing byte: InvalidPacket after consuming the frame
                subst hres
                refine ⟨(fun b r h => by cases h), (fun e r h he => ?_)⟩
                cases h
                omega
              · -- complete frame
                subst hres
                refine ⟨(fun b r h => ?_), (fun e r h he => by cases h)⟩
                cases h
                omega
    · -- start byte 0x01 (AMX variant)
      cases hx1 : readExactly 4 rest with
      | none =>
        rw [hx1] at hres
        simp only [] at hres
        subst hres
        exact ⟨(fun b r h => by cases h),
          (fun e r h he => by cases h; rcases he with h | h <;> cases h)⟩
      | some p1 =>
        obtain ⟨header, r1⟩ := p1
        rw [hx1] at hres
        simp only [] at hres
        obtain ⟨-, hr1, hn1⟩ := readExactly_some hx1
        have hr1len : r1.length + 4 ≤ rest.length := by
          have := congrArg List.length hr1
          simp only [List.length_drop] at this
          omega
        split_ifs at hres with hh
        · -- wrong AMX header: InvalidPacket
          subst hres
          refine ⟨(fun b r h => by cases h), (fun e r h he => ?_)⟩
          cases h
          omega
        · cases hx2 : readUntilETR r1 with
          | none =>
            rw [hx2] at hres
            simp only [] at hres
            subst hres
            exact ⟨(fun b r h => by cases h),
              (fun e r h he => by cases h; rcases he with h | h <;> cases h)⟩
          | some p2 =>
            obtain ⟨data, r2⟩ := p2
            rw [hx2] at hres
            simp only [] at hres
            have hr2 := readUntilETR_some hx2
            subst hres
            refine ⟨(fun b r h => ?_), (fun e r h he => by cases h)⟩
            cases h
            omega
    · -- start byte 0x41 ('A', bare AMX variant)
      cases hx1 : readExactly 2 rest with
      | none =>
        rw [hx1] at hres
        simp only [] at hres
        subst hres
        exact ⟨(fun b r h => by cases h),
          (fun e r h he => by cases h; rcases he with h | h <;> cases h)⟩
      | some p1 =>
        obtain ⟨header, r1⟩ := p1
        rw [hx1] at hres
        simp only [] at hres
        obtain ⟨-, hr1, hn1⟩ := readExactly_some hx1
        have hr1len : r1.length + 2 ≤ rest.length := by
          have := congrArg List.length hr1
          simp only [List.length_drop] at this
          omega
        split_ifs at hres with hh
        · subst hres
          refine ⟨(fun b r h => by cases h), (fun e r h he => ?_)⟩
          cases h
          omega
        · cases hx2 : readUntilETR r1 with
          | none =>
            rw [hx2] at hres
            simp only [] at hres
            subst hres
            exact ⟨(fun b r h => by cases h),
              (fun e r h he => by cases h; rcases he with h | h <;> cases h)⟩
          | some p2 =>
            obtain ⟨data, r2⟩ := p2
            rw [hx2] at hres
            simp only [] at hres
            have hr2 := readUntilETR_some hx2
            subst hres
            refine ⟨(fun b r h => ?_), (fun e r h he => by cases h)⟩
            cases h
            omega
    · -- start byte 0x00: NullPacket, one byte consumed
      subst hres
      refine ⟨(fun b r h => by cases h), (fun e r h he => ?_)⟩
      cases h
      simp
    · -- unrecognized start byte: InvalidPacket, one byte consumed
      subst hres
      refine ⟨(fun b r h => by cases h), (fun e r h he => ?_)⟩
      cases h
      simp

/-- A retriable `_read_response` failure consumed at least one stream byte. -/
theorem readResponseOnce_error_length {s : List Nat} {e : PacketError} {rest : List Nat}
    (h : readResponseOnce s = .error (e, rest))
    (he : e = .invalidPacket ∨ e = .nullPacket) : rest.length < s.length := by
  have hlen := readDelimited_length 4 s
  rw [readResponseOnce] at h
  cases hd : readDelimited 4 s with
  | fail e2 r2 =>
    rw [hd] at h
    simp only [] at h
    cases h
    exact hlen.2 e rest hd he
  | packet b r =>
    rw [hd] at h
    simp only [] at h
    have hr := hlen.1 b r hd
    by_cases hb : b = []
    · rw [if_pos hb] at h
      cases h
    · rw [if_neg hb] at h
      by_cases hamx : b.take 3 = [0x41, 0x4d, 0x58]
      · rw [if_pos hamx] at h
        cases hdec : AmxDuetResponse.from_bytes b with
        | ok p =>
          rw [hdec] at h
          simp only [] at h
          cases h
        | error e2 =>
          rw [hdec] at h
          simp only [] at h
          cases h
          exact hr
      · rw [if_neg hamx] at h
        cases hdec : ResponsePacket.from_bytes b with
        | ok p =>
          rw [hdec] at h
          simp only [] at h
          cases h
        | error e2 =>
          rw [hdec] at h
          simp only [] at h
          cases h
          exact hr

/-- A retriable `_read_command` failure consumed at least one stream byte. -/
theorem readCommandOnce_error_length {s : List Nat} {e : PacketError} {rest : List Nat}
    (h : readCommandOnce s = .error (e, rest))
    (he : e = .invalidPacket ∨ e = .nullPacket) : rest.length < s.length := by
  have hlen := readDelimited_length 3 s
  rw [readCommandOnce] at h
  cases hd : readDelimited 3 s with
  | fail e2 r2 =>
    rw [hd] at h
    simp only [] at h
    cases h
    exact hlen.2 e rest hd he
  | packet b r =>
    rw [hd] at h
    simp only [] at h
    have hr := hlen.1 b r hd
    by_cases hb : b = []
    · rw [if_pos hb] at h
      cases h
    · rw [if_neg hb] at h
      by_cases hamx : b.take 3 = [0x41, 0x4d, 0x58]
      · rw [if_pos hamx] at h
        cases hdec : AmxDuetRequest.from_bytes b with
        | ok p =>
          rw [hdec] at h
          simp only [] at h
          cases h
        | error e2 =>
          rw [hdec] at h
          simp only [] at h
          cases h
          exact hr
      · rw [if_neg hamx] at h
        cases hdec : CommandPacket.from_bytes b with
        | ok p =>
          rw [hdec] at h
          simp only [] at h
          cases h
        | error e2 =>
          rw [hdec] at h
          simp only [] at h
          cases h
          exact hr

/-- The retry loop of `read_response` is fuel-insensitive once the fuel
exceeds the stream length: each retry consumes at least one byte, so the
fuel chosen by `readResponse` never runs out and the embedding computes the
same result as the unbounded Python loop. -/
theorem readResponseGo_fuel :
    ∀ fuel1 fuel2 (s : List Nat), s.length < fuel1 → s.length < fuel2 →
      readResponseGo fuel1 s = readResponseGo fuel2 s := by
  intro fuel1
  induction fuel1 with
  | zero => intro fuel2 s h1 h2; omega
  | succ f1 ih =>
    intro fuel2 s h1 h2
    cases fuel2 with
    | zero => omega
    | succ f2 =>
      rw [readResponseGo, readResponseGo]
      cases h : readResponseOnce s with
      | ok p => rfl
      | error q =>
        obtain ⟨e, rest⟩ := q
        cases e with
        | invalidPacket =>
          have hl := readResponseOnce_error_length h (Or.inl rfl)
          exact ih f2 rest (by omega) (by omega)
        | nullPacket =>
          have hl := readResponseOnce_error_length h (Or.inr rfl)
          exact ih f2 rest (by omega) (by omega)
        | connectionFailed => rfl
        | unicodeError => rfl

/-- The retry loop of `read_command` is fuel-insensitive once the fuel
exceeds the stream length (see `readResponseGo_fuel`). -/
theorem readCommandGo_fuel :
    ∀ fuel1 fuel2 (s : List Nat), s.length < fuel1 → s.length < fuel2 →
      readCommandGo fuel1 s = readCommandGo fuel2 s := by
  intro fuel1
  induction fuel1 with
  | zero => intro fuel2 s h1 h2; omega
  | succ f1 ih =>
    intro fuel2 s h1 h2
    cases fuel2 with
    | zero => omega
    | succ f2 =>
      rw [readCommandGo, readCommandGo]
      cases h : readCommandOnce s with
      | ok p => rfl
      | error q =>
        obtain ⟨e, rest⟩ := q
        cases e with
        | invalidPacket =>
          have hl := readCommandOnce_error_length h (Or.inl rfl)
          exact ih f2 rest (by omega) (by omega)
        | nullPacket => rfl
        | connectionFailed => rfl
        | unicodeError => rfl

/-- `read_response` absorbs every `InvalidPacket` and `NullPacket`: the loop
retries with the next frame and neither condition ever reaches the caller. -/
theorem readResponseGo_absorbs (fuel : Nat) :
    ∀ s : List Nat, readResponseGo fuel s ≠ .error .invalidPacket ∧
      readResponseGo fuel s ≠ .error .nullPacket := by
  induction fuel with
  | zero =>
    intro s
    rw [readResponseGo]
    exact ⟨(by intro h; cases h), (by intro h; cases h)⟩
  | succ f ih =>
    intro s
    rw [readResponseGo]
    cases h : readResponseOnce s with
    | ok p => exact ⟨(by intro h2; cases h2), (by intro h2; cases h2)⟩
    | error q =>
      obtain ⟨e, rest⟩ := q
      cases e with
      | invalidPacket => exact ih rest
      | nullPacket => exact ih rest
      | connectionFailed => exact ⟨(by intro h2; cases h2), (by intro h2; cases h2)⟩
      | unicodeError => exact ⟨(by intro h2; cases h2), (by intro h2; cases h2)⟩

/-- `read_command` absorbs every `InvalidPacket` (but, unlike
`read_response`, has no handler for `NullPacket`). -/
theorem readCommandGo_absorbs_invalid (fuel : Nat) :
    ∀ s : List Nat, readCommandGo fuel s ≠ .error .invalidPacket := by
  induction fuel with
  | zero =>
    intro s
    rw [readCommandGo]
    intro h
    cases h
  | succ f ih =>
    intro s
    rw [readCommandGo]
    cases h : readCommandOnce s with
    | ok p => intro h2; cases h2
    | error q =>
      obtain ⟨e, rest⟩ := q
      cases e with
      | invalidPacket => exact ih rest
      | nullPacket => intro h2; cases h2
      | connectionFailed => intro h2; cases h2
      | unicodeError => intro h2; cases h2

/-! ## Throttle (`utils.py`)

`Throttle` serializes acquirers with minimum spacing, priority ordering and
optional deduplication.  The heap `self._queue` holds
`(priority, counter, future)` tuples; `heapq` pops the lexicographically
smallest `(priority, counter)` (counters are unique, so the future is never
compared).  A future is modelled by its state; the spacing sleep has no
effect on ordering or future states and is not modelled.  Dedup keys are
modelled as `Nat`.  All state updates are sequential, matching the
single-threaded cooperative scheduling of the source. -/

/-- The lifecycle of an `asyncio.Future` as used by the throttle:
`pending` (not done), `cancelled` (done, `await` raises `CancelledError`),
`resolved` (done, `set_result(None)` called). -/
inductive FutureState
  | pending
  | cancelled
  | resolved
deriving DecidableEq

/-- Python dict lookup (`d.get(k)`): the value bound to `k`.  Keys are
unique in a dict, so looking up the first occurrence is exact. -/
def alistGet : List (Nat × α) → Nat → Option α
  | [], _ => none
  | p :: rest, k => if p.1 = k then some p.2 else alistGet rest k

/-- `dict.pop(k, None)`: drop the entry bound to `k`. -/
def alistPop : List (Nat × α) → Nat → List (Nat × α)
  | [], _ => []
  | p :: rest, k => if p.1 = k then rest else p :: alistPop rest k

/-- `d[k] = v`: update in place when present, append otherwise (Python dicts
keep the first-insertion position of a key). -/
def alistSet : List (Nat × α) → Nat → α → List (Nat × α)
  | [], k, v => [(k, v)]
  | p :: rest, k, v => if p.1 = k then (p.1, v) :: rest else p :: alistSet rest k v

/-- Drop the first entry whose value is `v` (`_dispatch`'s cleanup loop:
delete the first dedup key owned by the resolved future, then break). -/
def alistPopValue (l : List (Nat × Nat)) (v : Nat) : List (Nat × Nat) :=
  match l with
  | [] => []
  | p :: rest => if p.2 = v then rest else p :: alistPopValue rest v

/-- The throttle's mutable state: the heap contents as `(priority, counter)`
pairs, the state of every created future (keyed by counter), the dedup map
(`dedup_key ↦ counter`) and the insertion counter. -/
structure ThrottleState where
  queue : List (Nat × Nat)
  futures : List (Nat × FutureState)
  dedup : List (Nat × Nat)
  counter : Nat
deriving DecidableEq

/-- The empty throttle. -/
def ThrottleState.initial : ThrottleState := ⟨[], [], [], 0⟩

/-- `Throttle.get(priority, dedup_key)` up to its suspension point: create a
future; when `dedup_key` is given, pop the key from `_dedup`, cancel the
previous owner if it is not yet done, and bind the key to the new future;
push `(priority, counter, future)` and bump the counter.  (The final
`await future` and the `_dispatch` scheduling are modelled by
`ThrottleState.dispatch`.) -/
def ThrottleState.get (st : ThrottleState) (priority : Nat) (dedupKey : Option Nat) :
    ThrottleState :=
  let fut := st.counter
  let futures0 := st.futures ++ [(fut, FutureState.pending)]
  let step :=
    match dedupKey with
    | none => (futures0, st.dedup)
    | some k =>
      let old := alistGet st.dedup k
      let dedup1 := alistPop st.dedup k
      let futures1 :=
        match old with
        | some o =>
          if alistGet futures0 o = some FutureState.pending then
            alistSet futures0 o FutureState.cancelled
          else futures0
        | none => futures0
      (futures1, alistSet dedup1 k fut)
  { queue := st.queue ++ [(priority, fut)]
    futures := step.1
    dedup := step.2
    counter := st.counter + 1 }

/-- `heapq.heappop`: remove and return the lexicographically smallest
`(priority, counter)` entry. -/
def popMin : List (Nat × Nat) → Option ((Nat × Nat) × List (Nat × Nat))
  | [] => none
  | e :: rest =>
    match popMin rest with
    | none => some (e, [])
    | some (m, r) =>
      if e.1 < m.1 ∨ (e.1 = m.1 ∧ e.2 ≤ m.2) then some (e, rest)
      else some (m, e :: r)

/-- `Throttle._dispatch`: drain the heap one entry at a time; entries whose
future is already done (`future.done()` right after the pop, and the
`future.cancelled()` re-check after the spacing sleep — in this sequential
embedding no state change can occur between the two) are skipped without
resolving; surviving entries have their dedup binding cleaned up and their
future resolved.  Returns the resolved entries in resolution order.
Fuel-driven; each iteration pops one entry, so the queue length suffices. -/
def ThrottleState.dispatchGo : Nat → ThrottleState → List (Nat × Nat) × ThrottleState
  | 0, st => ([], st)
  | fuel + 1, st =>
    match popMin st.queue with
    | none => ([], st)
    | some (e, rest) =>
      match alistGet st.futures e.2 with
      | some FutureState.pending =>
        let st2 : ThrottleState :=
          { st with
            queue := rest
            dedup := alistPopValue st.dedup e.2
            futures := alistSet st.futures e.2 FutureState.resolved }
        let out := ThrottleState.dispatchGo fuel st2
        (e :: out.1, out.2)
      | _ => ThrottleState.dispatchGo fuel { st with queue := rest }

def ThrottleState.dispatch (st : ThrottleState) : List (Nat × Nat) × ThrottleState :=
  ThrottleState.dispatchGo st.queue.length st

theorem popMin_eq_none {q : List (Nat × Nat)} (h : popMin q = none) : q = [] := by
  cases q with
  | nil => rfl
  | cons e rest =>
    rw [popMin] at h
    cases hp : popMin rest with
    | none => rw [hp] at h; cases h
    | some p =>
      obtain ⟨m, r⟩ := p
      rw [hp] at h
      simp only [] at h
      split_ifs at h

theorem popMin_perm {q : List (Nat × Nat)} {m : Nat × Nat} {r : List (Nat × Nat)}
    (h : popMin q = some (m, r)) : q.Perm (m :: r) := by
  induction q generalizing m r with
  | nil => cases h
  | cons e rest ih =>
    rw [popMin] at h
    cases hp : popMin rest with
    | none =>
      rw [hp] at h
      simp only [] at h
      cases h
      rw [popMin_eq_none hp]
    | some p =>
      obtain ⟨m2, r2⟩ := p
      rw [hp] at h
      simp only [] at h
      split_ifs at h with hle
      · cases h
        exact List.Perm.refl _
      · cases h
        exact ((ih hp).cons e).trans (List.Perm.swap m e r2)

theorem popMin_min {q : List (Nat × Nat)} {m : Nat × Nat} {r : List (Nat × Nat)}
    (h : popMin q = some (m, r)) :
    ∀ x ∈ r, m.1 < x.1 ∨ (m.1 = x.1 ∧ m.2 ≤ x.2) := by
  induction q generalizing m r with
  | nil => cases h
  | cons e rest ih =>
    rw [popMin] at h
    cases hp : popMin rest with
    | none =>
      rw [hp] at h
      simp only [] at h
      cases h
      intro x hx
      cases hx
    | some p =>
      obtain ⟨m2, r2⟩ := p
      rw [hp] at h
      simp only [] at h
      split_ifs at h with hle
      · cases h
        intro x hx
        have hx2 : x ∈ m2 :: r2 := (popMin_perm hp).mem_iff.mp hx
        rcases List.mem_cons.mp hx2 with rfl | hx2
        · omega
        · have := ih hp x hx2
          omega
      · cases h
        intro x hx
        rcases List.mem_cons.mp hx with rfl | hx2
        · omega
        · exact ih hp x hx2

theorem alistGet_set_eq {α : Type} (l : List (Nat × α)) (k : Nat) (v : α) :
    alistGet (alistSet l k v) k = some v := by
  induction l with
  | nil => simp [alistSet, alistGet]
  | cons p rest ih =>
    rw [alistSet]
    by_cases hp : p.1 = k
    · rw [if_pos hp, alistGet, if_pos hp]
    · rw [if_neg hp, alistGet, if_neg hp]
      exact ih

theorem alistGet_set_ne {α : Type} (l : List (Nat × α)) (k k2 : Nat) (v : α)
    (h : ¬ k2 = k) :
    alistGet (alistSet l k v) k2 = alistGet l k2 := by
  induction l with
  | nil =>
    rw [alistSet, alistGet, alistGet]
    rw [if_neg (by omega)]
    rfl
  | cons p rest ih =>
    rw [alistSet]
    by_cases hp : p.1 = k
    · rw [if_pos hp, alistGet, alistGet]
      rw [if_neg (by omega), if_neg (by omega)]
    · rw [if_neg hp, alistGet, alistGet]
      by_cases hk2 : p.1 = k2
      · rw [if_pos hk2, if_pos hk2]
      · rw [if_neg hk2, if_neg hk2]
        exact ih

theorem alistGet_append_ne {α : Type} (l : List (Nat × α)) (k k2 : Nat) (v : α)
    (h : ¬ k2 = k) :
    alistGet (l ++ [(k, v)]) k2 = alistGet l k2 := by
  induction l with
  | nil =>
    rw [List.nil_append, alistGet, alistGet]
    rw [if_neg (by omega)]
    rfl
  | cons p rest ih =>
    rw [List.cons_append, alistGet, alistGet]
    by_cases hk2 : p.1 = k2
    · rw [if_pos hk2, if_pos hk2]
    · rw [if_neg hk2, if_neg hk2]
      exact ih

theorem alistGet_append_self {α : Type} (l : List (Nat × α)) (k : Nat) (v : α)
    (h : ∀ p ∈ l, ¬ p.1 = k) :
    alistGet (l ++ [(k, v)]) k = some v := by
  induction l with
  | nil => simp [alistGet]
  | cons p rest ih =>
    rw [List.cons_append, alistGet, if_neg (h p (by simp))]
    exact ih (fun q hq => h q (by simp [hq]))

/-- The entries of `q` whose future is still pending in `f`. -/
def pendingFilter (f : List (Nat × FutureState)) (q : List (Nat × Nat)) : List (Nat × Nat) :=
  q.filter (fun e => alistGet f e.2 = some FutureState.pending)

/-- `_dispatch` resolves exactly the still-pending queue entries, once each
(up to permutation the pending entries), and in strictly ascending
`(priority, insertion_sequence)` order. -/
theorem dispatchGo_spec :
    ∀ fuel (st : ThrottleState), st.queue.length ≤ fuel →
      (st.queue.map Prod.snd).Nodup →
      (ThrottleState.dispatchGo fuel st).1.Perm (pendingFilter st.futures st.queue) ∧
      (ThrottleState.dispatchGo fuel st).1.Pairwise
        (fun a b => a.1 < b.1 ∨ (a.1 = b.1 ∧ a.2 < b.2)) := by
  intro fuel
  induction fuel with
  | zero =>
    intro st hlen hnd
    have hq : st.queue = [] := List.eq_nil_of_length_eq_zero (by omega)
    rw [ThrottleState.dispatchGo]
    simp [pendingFilter, hq]
  | succ f ih =>
    intro st hlen hnd
    rw [ThrottleState.dispatchGo]
    cases hpop : popMin st.queue with
    | none =>
      have hq := popMin_eq_none hpop
      simp [pendingFilter, hq]
    | some pr =>
      obtain ⟨e, rest⟩ := pr
      simp only []
      have hperm := popMin_perm hpop
      have hmin := popMin_min hpop
      have hlenr : rest.length + 1 = st.queue.length := by
        have h := hperm.length_eq
        simp only [List.length_cons] at h
        omega
      have hndr : ((e :: rest).map Prod.snd).Nodup := (hperm.map Prod.snd).nodup hnd
      rw [List.map_cons, List.nodup_cons] at hndr
      obtain ⟨hemem, hndrest⟩ := hndr
      have hfperm : (pendingFilter st.futures st.queue).Perm
          (pendingFilter st.futures (e :: rest)) := hperm.filter _
      cases hget : alistGet st.futures e.2 with
      | none =>
        have hskip : pendingFilter st.futures (e :: rest) = pendingFilter st.futures rest := by
          simp [pendingFilter, List.filter_cons, hget]
        have ihr := ih { st with queue := rest } (by simp only []; omega) hndrest
        refine ⟨ihr.1.trans ?_, ihr.2⟩
        rw [← hskip]
        exact hfperm.symm
      | some fs =>
        cases fs with
        | pending =>
          have hkeep : pendingFilter st.futures (e :: rest)
              = e :: pendingFilter st.futures rest := by
            simp [pendingFilter, List.filter_cons, hget]
          have hcong : pendingFilter (alistSet st.futures e.2 FutureState.resolved) rest
              = pendingFilter st.futures rest := by
            simp only [pendingFilter]
            apply List.filter_congr
            intro x hx
            have hne : ¬ x.2 = e.2 := by
              intro hx2
              exact hemem (hx2 ▸ List.mem_map_of_mem Prod.snd hx)
            rw [alistGet_set_ne st.futures e.2 x.2 FutureState.resolved hne]
          have ihr := ih
            { st with
              queue := rest
              dedup := alistPopValue st.dedup e.2
              futures := alistSet st.futures e.2 FutureState.resolved }
            (by simp only []; omega) hndrest
          have ihr1 : (ThrottleState.dispatchGo f
              { queue := rest, futures := alistSet st.futures e.2 FutureState.resolved,
                dedup := alistPopValue st.dedup e.2, counter := st.counter }).1.Perm
              (pendingFilter (alistSet st.futures e.2 FutureState.resolved) rest) := ihr.1
          rw [hcong] at ihr1
          constructor
          · have h2 := ihr1.cons e
            rw [← hkeep] at h2
            exact h2.trans hfperm.symm
          · rw [List.pairwise_cons]
            refine ⟨?_, ihr.2⟩
            intro x hx
            have hx2 : x ∈ pendingFilter st.futures rest := ihr1.mem_iff.mp hx
            have hxr : x ∈ rest := List.mem_of_mem_filter hx2
            have hq := hmin x hxr
            have hne : ¬ x.2 = e.2 := by
              intro hxx
              exact hemem (hxx ▸ List.mem_map_of_mem Prod.snd hxr)
            omega
        | cancelled =>
          have hskip : pendingFilter st.futures (e :: rest) = pendingFilter st.futures rest := by
            simp [pendingFilter, List.filter_cons, hget]
          have ihr := ih { st with queue := rest } (by simp only []; omega) hndrest
          refine ⟨ihr.1.trans ?_, ihr.2⟩
          rw [← hskip]
          exact hfperm.symm
        | resolved =>
          have hskip : pendingFilter st.futures (e :: rest) = pendingFilter st.futures rest := by
            simp [pendingFilter, List.filter_cons, hget]
          have ihr := ih { st with queue := rest } (by simp only []; omega) hndrest
          refine ⟨ihr.1.trans ?_, ihr.2⟩
          rw [← hskip]
          exact hfperm.symm

/-! ## Client (`client.py`)

`ClientBase` keeps its listeners in `self._listen: set[Callable]`.  CPython
sets store elements by hash slot; listener ids are modelled as their hash
values, restricted to values below the table size (8, the initial CPython
table), where each element occupies its own slot and iteration visits slots
in ascending hash order.  The set is therefore embedded as an ascending
duplicate-free list, and set iteration as list order — hash order, not
insertion order. -/

/-- `set.add`: insert keeping the ascending slot order, no duplicates. -/
def pySetInsert : List Nat → Nat → List Nat
  | [], x => [x]
  | y :: rest, x =>
    if x = y then y :: rest
    else if x < y then x :: y :: rest
    else y :: pySetInsert rest x

/-- `set.remove` (the removal half; a missing element raises `KeyError`,
which no claim exercises). -/
def pySetErase : List Nat → Nat → List Nat
  | [], _ => []
  | y :: rest, x => if x = y then rest else y :: pySetErase rest x

/-- `ClientBase.add_listener`: `self._listen.add(listener)`. -/
def addListener (s : List Nat) (l : Nat) : List Nat := pySetInsert s l

/-- `ClientBase.remove_listener`: `self._listen.remove(listener)`. -/
def removeListener (s : List Nat) (l : Nat) : List Nat := pySetErase s l

/-- The calls made by `_process_data`'s broadcast for one decoded frame:
`for listener in self._listen: listener(packet)` — one call per registered
listener, in set-iteration order. -/
def processDataCalls (listeners : List Nat) (packet : RespFrame) : List (Nat × RespFrame) :=
  listeners.map (fun l => (l, packet))

/-- How the body of the `with self.listen(listen)` block in `request_raw`
finishes: normal return with a matched response, `TimeoutError` from the
enclosing `asyncio.timeout` scope (which cancels the `await future` inside
the `with`), any other raised exception (e.g. `ConnectionFailed` from the
write), or cancellation of the awaiting caller. -/
inductive BodyOutcome
  | success
  | timeout
  | exc
  | cancelled
deriving DecidableEq

/-- `ClientBase.listen` is a `@contextmanager` generator:

    self.add_listener(listener)
    yield self
    self.remove_listener(listener)

with no `try`/`finally` around the `yield`.  Python semantics: on normal
exit of the `with` body the generator resumes after the yield and
`remove_listener` runs; when the body raises (timeout, other exception,
cancellation), `__exit__` throws the exception into the generator at the
yield point and, with nothing catching it there, it propagates out of the
generator at once — the `remove_listener` line after the yield is never
executed on those paths. -/
def listenScope (s : List Nat) (l : Nat) (body : BodyOutcome) : List Nat × BodyOutcome :=
  let s1 := addListener s l
  match body with
  | .success => (removeListener s1 l, .success)
  | o => (s1, o)

/-- The listener set after one `request_raw` attempt finishing by the given
path (the transient listener is registered on entry to the
`with self.listen(listen)` block, which spans the write and the await). -/
def requestRawListeners (s : List Nat) (l : Nat) (path : BodyOutcome) : List Nat :=
  (listenScope s l path).1

/-- `client.py`: `_REQUEST_TIMEOUT = 3.0`. -/
def REQUEST_TIMEOUT : Nat := 3

/-- `asyncio.timeout(budget)`: the scope raises `TimeoutError` iff the time
spent inside it exceeds the budget. -/
def withTimeout (budget inner : Nat) : Option Nat :=
  if budget < inner then none else some inner

/-- One `request_raw` attempt as a timeline, mirroring the code's scope
structure: `await self._throttle.get()` runs first, and only then does the
call enter `async with asyncio.timeout(timeout or _REQUEST_TIMEOUT)`, which
spans the write and the await of the matched response.  Returns the total
elapsed time of the attempt, or `none` when it raises `TimeoutError`. -/
def requestRawElapsed (throttleWait writeTime respWait timeout : Nat) : Option Nat :=
  (withTimeout timeout (writeTime + respWait)).map (fun inner => throttleWait + inner)

/-- Failures of `ClientBase.send`/`ClientBase.request`:
`NotConnectedException`, `UnsupportedZone`, and the family of
`ResponseException`s selected from the answer code by
`ResponseException.from_response` (carried here as the answer code). -/
inductive ClientError
  | notConnected
  | unsupportedZone
  | responseError (ac : Nat)
deriving DecidableEq

/-- Observable side effects of a client call, in order. -/
inductive ClientEvent
  | throttleAcquired
  | wrote (bytes : List Nat)
  | awaitedResponse
deriving DecidableEq

/-- `ClientBase.send(zn, cc, data)`: check `self._writer` (connection),
check the zone gate `not (cc.flags & EnumFlags.ZONE_SUPPORT) and zn != 1`,
then `await self._throttle.get()` and write the encoded `CommandPacket`.
Returns the events that occurred plus the outcome; a failed gate produces
no event — no throttle slot, no bytes. -/
def clientSend (connected : Bool) (zn : Nat) (cc : CommandCode) (data : List Nat) :
    List ClientEvent × Except ClientError Unit :=
  if ¬ connected then ([], .error .notConnected)
  else if ¬ cc.zoneSupport ∧ zn ≠ 1 then ([], .error .unsupportedZone)
  else ([.throttleAcquired, .wrote (CommandPacket.to_bytes ⟨zn, cc.code, data⟩)], .ok ())

/-- `ClientBase.request(zn, cc, data)`: connection and zone gates as in
`send`; for a `SEND_ONLY` command it delegates to `send` and returns no
payload (`return` with no value); otherwise it performs
`request_raw` — modelled by its event trace plus the matched response
`rsp` — and returns `rsp.data` when the answer code is the
`STATUS_UPDATE` success code, failing with the typed response error
otherwise. -/
def clientRequest (connected : Bool) (zn : Nat) (cc : CommandCode) (data : List Nat)
    (rsp : ResponsePacket) :
    List ClientEvent × Except ClientError (Option (List Nat)) :=
  if ¬ connected then ([], .error .notConnected)
  else if ¬ cc.zoneSupport ∧ zn ≠ 1 then ([], .error .unsupportedZone)
  else if cc.sendOnly then
    let s := clientSend connected zn cc data
    match s.2 with
    | .ok _ => (s.1, .ok none)
    | .error e => (s.1, .error e)
  else
    let trace := [ClientEvent.throttleAcquired,
      ClientEvent.wrote (CommandPacket.to_bytes ⟨zn, cc.code, data⟩),
      ClientEvent.awaitedResponse]
    if rsp.ac = AnswerCodes.STATUS_UPDATE then (trace, .ok (some rsp.data))
    else (trace, .error (.responseError rsp.ac))

/-! ## Claim theorems -/

/-- C1: the spec requires the transient listener registered by
`request_raw` to be removed from the listener set on every exit path
(success, timeout, exception, cancellation).  Evaluating the embedded
`listen` context manager: on the timeout, exception and cancellation paths
the listener remains registered — the generator has no `try/finally`, so
the removal after the `yield` is skipped — while the normal path does
remove it.  The code therefore violates the stated requirement. -/
theorem requestRaw_listener_leak :
    requestRawListeners [] 0 BodyOutcome.timeout = [0] ∧
    0 ∈ requestRawListeners [] 0 BodyOutcome.timeout ∧
    requestRawListeners [] 0 BodyOutcome.cancelled = [0] ∧
    requestRawListeners [] 0 BodyOutcome.exc = [0] ∧
    requestRawListeners [] 0 BodyOutcome.success = [] := by
  refine ⟨rfl, by decide, rfl, rfl, rfl⟩

/-- C2 (counterexample): a `0x00` keep-alive byte immediately before a valid
command frame does not make `read_command` yield that frame — `read_command`
catches only `InvalidPacket`, and `NullPacket` is not a subclass of
`InvalidPacket`, so the `NullPacket` raised for the `0x00` start byte
propagates to the caller. -/
theorem readCommand_nullPacket_propagates :
    readCommand (0x00 :: CommandPacket.to_bytes ⟨1, 8, [0xF0]⟩)
      = .error .nullPacket ∧
    readCommand (0x00 :: CommandPacket.to_bytes ⟨1, 8, [0xF0]⟩)
      ≠ .ok (some (.cmd ⟨1, 8, [0xF0]⟩)) := by
  refine ⟨rfl, by decide⟩

/-- C2 (amended): `read_response` absorbs both `InvalidPacket` and
`NullPacket` (retrying with the next frame, for any fuel and stream);
`read_command` absorbs `InvalidPacket` only.  A `0x00` byte before a valid
frame is transparent to `read_response`, which returns the decoded frame,
but causes `read_command` to propagate `NullPacket`. -/
theorem read_retry_absorption :
    (∀ fuel (s : List Nat), readResponseGo fuel s ≠ .error .invalidPacket ∧
      readResponseGo fuel s ≠ .error .nullPacket) ∧
    (∀ fuel (s : List Nat), readCommandGo fuel s ≠ .error .invalidPacket) ∧
    readResponse (0x00 :: ResponsePacket.to_bytes ⟨1, 8, 0, [0x01]⟩)
      = .ok (some (.resp ⟨1, 8, 0, [0x01]⟩)) ∧
    readCommand (0x00 :: CommandPacket.to_bytes ⟨1, 8, [0xF0]⟩)
      = .error .nullPacket :=
  ⟨fun fuel s => readResponseGo_absorbs fuel s,
   fun fuel s => readCommandGo_absorbs_invalid fuel s,
   rfl, rfl⟩

theorem read_retry_absorption_witness :
    readResponseGo 1 [0x00] ≠ .error .invalidPacket ∧
    readResponseGo 1 [0x00] ≠ .error .nullPacket ∧
    readCommandGo 1 [0xff] ≠ .error .invalidPacket :=
  ⟨(read_retry_absorption.1 1 [0x00]).1, (read_retry_absorption.1 1 [0x00]).2,
   read_retry_absorption.2.1 1 [0xff]⟩

/-- C3 (counterexample): the `DiscoveryResponse` round trip fails on a tag
map with an empty value: `{"k": ""}` serializes to `AMXB<k=>\r`, whose tag
the `<(.+?)=(.+?)>` pattern (nonempty lazy groups) cannot match, so parsing
returns the empty map instead of the original value. -/
theorem amx_roundtrip_failure :
    AmxDuetResponse.from_bytes (AmxDuetResponse.to_bytes ⟨[(['k'], [])]⟩)
      = .ok ⟨[]⟩ ∧
    AmxDuetResponse.from_bytes (AmxDuetResponse.to_bytes ⟨[(['k'], [])]⟩)
      ≠ .ok ⟨[(['k'], [])]⟩ := by
  refine ⟨rfl, by decide⟩

/-- C3 (amended): encode/decode is a lossless round trip for every
`CommandPacket` and `ResponsePacket` whose fields are bytes and whose
payload fits the length byte, and for every `DiscoveryResponse` whose tag
map is well formed (keys distinct; keys and values nonempty ASCII free of
`<`, `>`, `=` and newlines); serialization is total on those values. -/
theorem codec_roundtrip :
    (∀ p : CommandPacket, p.valid → CommandPacket.from_bytes p.to_bytes = .ok p) ∧
    (∀ p : ResponsePacket, p.valid → ResponsePacket.from_bytes p.to_bytes = .ok p) ∧
    (∀ p : AmxDuetResponse, amxWellFormed p.values →
      AmxDuetResponse.from_bytes p.to_bytes = .ok p) :=
  ⟨fun p _ => commandPacket_roundtrip p,
   fun p _ => responsePacket_roundtrip p,
   fun p h => amxResponse_bytes_roundtrip p h⟩

theorem codec_roundtrip_witness :
    CommandPacket.from_bytes (CommandPacket.to_bytes ⟨1, 8, [0xF0]⟩)
      = .ok ⟨1, 8, [0xF0]⟩ ∧
    ResponsePacket.from_bytes (ResponsePacket.to_bytes ⟨1, 8, 0, [0x01]⟩)
      = .ok ⟨1, 8, 0, [0x01]⟩ ∧
    AmxDuetResponse.from_bytes (AmxDuetResponse.to_bytes ⟨[(['a'], ['b'])]⟩)
      = .ok ⟨[(['a'], ['b'])]⟩ :=
  ⟨codec_roundtrip.1 ⟨1, 8, [0xF0]⟩ (by decide),
   codec_roundtrip.2.1 ⟨1, 8, 0, [0x01]⟩ (by decide),
   codec_roundtrip.2.2 ⟨[(['a'], ['b'])]⟩ (by decide)⟩

/-- C4 (counterexample): a `request_raw` attempt whose throttle wait alone
is 10 time units against the default 3-unit timeout completes without
`TimeoutError` although the total time exceeds the timeout — the
`asyncio.timeout` scope is entered only after `await self._throttle.get()`
returns. -/
theorem requestRaw_throttle_outside_timeout :
    requestRawElapsed 10 0 0 REQUEST_TIMEOUT = some 10 ∧
    REQUEST_TIMEOUT < 10 + 0 + 0 := by
  refine ⟨rfl, by decide⟩

/-- C4 (amended): the request timeout bounds only the write plus the wait
for the matched response; the attempt raises `TimeoutError` exactly when
that inner span exceeds the timeout, and otherwise completes after the
whole throttle wait plus the inner span, with the throttle wait unbounded
by the timeout. -/
theorem requestRaw_timeout_scope (d1 d2 d3 t : Nat) :
    (requestRawElapsed d1 d2 d3 t = none ↔ t < d2 + d3) ∧
    (t < d2 + d3 ∨ requestRawElapsed d1 d2 d3 t = some (d1 + d2 + d3)) := by
  unfold requestRawElapsed withTimeout
  split_ifs with h
  · simp [h]
  · constructor
    · simp [h]
    · right
      simp [Nat.add_assoc]

theorem requestRaw_timeout_scope_witness :
    (requestRawElapsed 10 0 0 3 = none ↔ 3 < 0 + 0) ∧
    (3 < 0 + 0 ∨ requestRawElapsed 10 0 0 3 = some (10 + 0 + 0)) :=
  requestRaw_timeout_scope 10 0 0 3

/-- C7: when the command's capability flags lack multi-zone support and the
target zone is not 1, both `send` and `request` fail with `UnsupportedZone`
with an empty event trace — no throttle slot acquired and no bytes written;
with multi-zone support or zone 1, neither call ever fails with
`UnsupportedZone`. -/
theorem zone_support_gate :
    (∀ (zn : Nat) (cc : CommandCode) (data : List Nat) (rsp : ResponsePacket),
      cc.zoneSupport = false → ¬ zn = 1 →
      clientSend true zn cc data = ([], .error .unsupportedZone) ∧
      clientRequest true zn cc data rsp = ([], .error .unsupportedZone)) ∧
    (∀ (zn : Nat) (cc : CommandCode) (data : List Nat) (rsp : ResponsePacket),
      (cc.zoneSupport = true ∨ zn = 1) →
      (clientSend true zn cc data).2 ≠ .error .unsupportedZone ∧
      (clientRequest true zn cc data rsp).2 ≠ .error .unsupportedZone) := by
  constructor
  · intro zn cc data rsp hflag hzn
    constructor
    · simp [clientSend, hflag, hzn]
    · simp [clientRequest, hflag, hzn]
  · intro zn cc data rsp hok
    constructor
    · rcases hok with h | h <;> simp [clientSend, h]
    · by_cases hsend : cc.sendOnly = true
      · rcases hok with h | h <;>
          by_cases hac : rsp.ac = AnswerCodes.STATUS_UPDATE <;>
          simp [clientRequest, clientSend, hsend, hac, h]
      · rcases hok with h | h <;>
          by_cases hac : rsp.ac = AnswerCodes.STATUS_UPDATE <;>
          simp [clientRequest, clientSend, hsend, hac, h]

theorem zone_support_gate_witness :
    clientSend true 2 ⟨8, false, false⟩ [] = ([], .error .unsupportedZone) ∧
    (clientSend true 1 ⟨8, false, false⟩ []).2 ≠ .error .unsupportedZone :=
  ⟨(zone_support_gate.1 2 ⟨8, false, false⟩ [] ⟨1, 8, 0, []⟩ rfl (by decide)).1,
   (zone_support_gate.2 1 ⟨8, false, false⟩ [] ⟨1, 8, 0, []⟩ (Or.inr rfl)).1⟩

/-- C8 (counterexample): the listener set is a Python `set`, iterated in
hash order, not registration order: registering listeners with ids 2 then 1
yields the broadcast order (1, then 2), not the registration order
(2, then 1). -/
theorem listener_order_not_registration :
    addListener (addListener [] 2) 1 = [1, 2] ∧
    processDataCalls (addListener (addListener [] 2) 1) (.resp ⟨1, 8, 0, []⟩)
      = [(1, .resp ⟨1, 8, 0, []⟩), (2, .resp ⟨1, 8, 0, []⟩)] ∧
    processDataCalls (addListener (addListener [] 2) 1) (.resp ⟨1, 8, 0, []⟩)
      ≠ [(2, .resp ⟨1, 8, 0, []⟩), (1, .resp ⟨1, 8, 0, []⟩)] := by
  refine ⟨rfl, rfl, by decide⟩

/-- C8 (amended): every successfully decoded inbound frame is delivered by
the dispatch loop to every currently registered listener, exactly once
each, in the set's iteration order (which is hash order, not in general the
registration order). -/
theorem listener_broadcast :
    ∀ (s : List Nat) (packet : RespFrame),
      s.Nodup →
      (∀ l, (l, packet) ∈ processDataCalls s packet ↔ l ∈ s) ∧
      (processDataCalls s packet).Nodup ∧
      (processDataCalls s packet).map Prod.fst = s := by
  intro s packet hnd
  refine ⟨?_, ?_, ?_⟩
  · intro l
    simp [processDataCalls]
  · have hinj : Function.Injective (fun x : Nat => (x, packet)) := by
      intro a b hab
      simpa using congrArg Prod.fst hab
    exact hnd.map hinj
  · simp [processDataCalls, List.map_map, Function.comp_def]

theorem listener_broadcast_witness :
    ((1, RespFrame.resp ⟨1, 8, 0, []⟩)
      ∈ processDataCalls [1, 2] (.resp ⟨1, 8, 0, []⟩) ↔ 1 ∈ [1, 2]) ∧
    (processDataCalls [1, 2] (.resp ⟨1, 8, 0, []⟩)).map Prod.fst = [1, 2] :=
  ⟨(listener_broadcast [1, 2] (.resp ⟨1, 8, 0, []⟩) (by decide)).1 1,
   (listener_broadcast [1, 2] (.resp ⟨1, 8, 0, []⟩) (by decide)).2.2⟩

/-- C9: `AmxDuetResponse.from_bytes` accepts inputs whose tag values contain
bare (unescaped) `&` characters: for a well-formed `AMXB`-prefixed input
whose values contain `&`, parsing succeeds with the ampersand values
preserved verbatim. -/
theorem amx_ampersand_accepted :
    ∀ (values : List (List Char × List Char)),
      amxWellFormed values →
      (∃ kv ∈ values, '&' ∈ kv.2) →
      AmxDuetResponse.from_bytes (AmxDuetResponse.to_bytes ⟨values⟩)
        = .ok ⟨values⟩ :=
  fun values h _ => amxResponse_bytes_roundtrip ⟨values⟩ h

theorem amx_ampersand_accepted_witness :
    AmxDuetResponse.from_bytes (AmxDuetResponse.to_bytes
        ⟨[(['n', 'a', 'm', 'e'],
           ['R', 'o', 'c', 'k', ' ', '&', ' ', 'R', 'o', 'l', 'l'])]⟩)
      = .ok ⟨[(['n', 'a', 'm', 'e'],
           ['R', 'o', 'c', 'k', ' ', '&', ' ', 'R', 'o', 'l', 'l'])]⟩ :=
  amx_ampersand_accepted _ (by decide)
    ⟨(['n', 'a', 'm', 'e'], ['R', 'o', 'c', 'k', ' ', '&', ' ', 'R', 'o', 'l', 'l']),
      by decide, by decide⟩

/-- C10: for a command flagged `SEND_ONLY`, `request` delegates to the
fire-and-forget `send` path and returns no payload: its result does not
depend on any response, its trace contains no response wait, and it never
fails with a response-semantics (answer-code) error. -/
theorem sendOnly_no_correlation :
    ∀ (zn : Nat) (cc : CommandCode) (data : List Nat) (rsp rsp2 : ResponsePacket),
      cc.sendOnly = true →
      (cc.zoneSupport = true ∨ zn = 1) →
      clientRequest true zn cc data rsp
        = ([.throttleAcquired, .wrote (CommandPacket.to_bytes ⟨zn, cc.code, data⟩)],
           .ok none) ∧
      clientRequest true zn cc data rsp = clientRequest true zn cc data rsp2 ∧
      ClientEvent.awaitedResponse ∉ (clientRequest true zn cc data rsp).1 ∧
      (∀ ac, (clientRequest true zn cc data rsp).2 ≠ .error (.responseError ac)) := by
  intro zn cc data rsp rsp2 hsend hok
  have hmain : clientRequest true zn cc data rsp
      = ([.throttleAcquired, .wrote (CommandPacket.to_bytes ⟨zn, cc.code, data⟩)],
         .ok none) := by
    rcases hok with h | h <;> simp [clientRequest, clientSend, hsend, h]
  have hmain2 : clientRequest true zn cc data rsp2
      = ([.throttleAcquired, .wrote (CommandPacket.to_bytes ⟨zn, cc.code, data⟩)],
         .ok none) := by
    rcases hok with h | h <;> simp [clientRequest, clientSend, hsend, h]
  refine ⟨hmain, hmain.trans hmain2.symm, ?_, ?_⟩
  · rw [hmain]
    intro hmem
    simp at hmem
  · intro ac
    rw [hmain]
    simp

theorem sendOnly_no_correlation_witness :
    clientRequest true 1 ⟨8, false, true⟩ [] ⟨1, 8, 0, []⟩
      = ([.throttleAcquired, .wrote (CommandPacket.to_bytes ⟨1, 8, []⟩)], .ok none) :=
  (sendOnly_no_correlation 1 ⟨8, false, true⟩ [] ⟨1, 8, 0, []⟩ ⟨1, 8, 5, []⟩
    rfl (Or.inr rfl)).1

theorem alistGet_mem {α : Type} {l : List (Nat × α)} {k : Nat} {v : α}
    (h : alistGet l k = some v) : (k, v) ∈ l := by
  induction l with
  | nil => cases h
  | cons p rest ih =>
    rw [alistGet] at h
    split_ifs at h with hp
    · cases h
      rw [← hp]
      simp
    · exact List.mem_cons_of_mem _ (ih h)

/-- C5: `Throttle.get` acquirers are dispatched in strictly ascending
`(priority, insertion_sequence)` order — exactly the still-pending entries,
each once; in particular with one in-flight acquire (already popped) and
three queued acquires of priorities `[2, 0, 1]` submitted in that order,
the completion order is priority `0`, then `1`, then `2`. -/
theorem throttle_priority_order :
    (∀ st : ThrottleState, (st.queue.map Prod.snd).Nodup →
      st.dispatch.1.Perm (pendingFilter st.futures st.queue) ∧
      st.dispatch.1.Pairwise (fun a b => a.1 < b.1 ∨ (a.1 = b.1 ∧ a.2 < b.2))) ∧
    (((ThrottleState.initial.get 2 none).get 0 none).get 1 none).dispatch.1
      = [(0, 1), (1, 2), (2, 0)] := by
  constructor
  · intro st hnd
    exact dispatchGo_spec st.queue.length st (le_refl _) hnd
  · rfl

theorem throttle_priority_order_witness :
    ((((ThrottleState.initial.get 2 none).get 0 none).get 1 none).queue.map
      Prod.snd).Nodup ∧
    (((ThrottleState.initial.get 2 none).get 0 none).get 1 none).dispatch.1.Pairwise
      (fun a b => a.1 < b.1 ∨ (a.1 = b.1 ∧ a.2 < b.2)) :=
  ⟨by decide,
   (throttle_priority_order.1 (((ThrottleState.initial.get 2 none).get 0 none).get 1 none)
     (by decide)).2⟩

/-- C6: when `Throttle.get` is called with a `dedup_key` owned by a
still-pending entry, that older entry's future is cancelled and the new
entry is pending, with every other future untouched; when the key is free
or its owner already done, no future other than the new one changes.  The
scenario conjuncts: two queued gets sharing a key — the first is cancelled
(skipped by dispatch, never resolved) and the second completes; differing
keys both complete; a predecessor that was already dispatched is unaffected. -/
theorem throttle_dedup :
    (∀ (st : ThrottleState) (p k o : Nat),
      alistGet st.dedup k = some o →
      alistGet st.futures o = some FutureState.pending →
      (∀ q ∈ st.futures, q.1 < st.counter) →
      alistGet (st.get p (some k)).futures o = some FutureState.cancelled ∧
      alistGet (st.get p (some k)).futures st.counter = some FutureState.pending ∧
      (∀ c, ¬ c = o → ¬ c = st.counter →
        alistGet (st.get p (some k)).futures c = alistGet st.futures c)) ∧
    (∀ (st : ThrottleState) (p k : Nat),
      (∀ o, alistGet st.dedup k = some o →
        ¬ alistGet st.futures o = some FutureState.pending) →
      (∀ q ∈ st.futures, q.1 < st.counter) →
      (∀ q ∈ st.dedup, q.2 < st.counter) →
      ∀ c, ¬ c = st.counter →
        alistGet (st.get p (some k)).futures c = alistGet st.futures c) ∧
    ((ThrottleState.initial.get 1 (some 7)).get 1 (some 7)).dispatch.1 = [(1, 1)] ∧
    alistGet (((ThrottleState.initial.get 1 (some 7)).get 1 (some 7)).dispatch.2).futures 0
      = some FutureState.cancelled ∧
    alistGet (((ThrottleState.initial.get 1 (some 7)).get 1 (some 7)).dispatch.2).futures 1
      = some FutureState.resolved ∧
    ((ThrottleState.initial.get 1 (some 7)).get 1 (some 8)).dispatch.1
      = [(1, 0), (1, 1)] ∧
    (((ThrottleState.initial.get 1 (some 7)).dispatch.2).get 1 (some 7)).dispatch.1
      = [(1, 1)] ∧
    alistGet ((((ThrottleState.initial.get 1 (some 7)).dispatch.2).get 1
        (some 7)).dispatch.2).futures 0
      = some FutureState.resolved := by
  refine ⟨?_, ?_, rfl, rfl, rfl, rfl, rfl, rfl⟩
  · intro st p k o hd hp hwf
    have holt : o < st.counter := hwf (o, FutureState.pending) (alistGet_mem hp)
    have hone : ¬ o = st.counter := by omega
    have hfut0 : alistGet (st.futures ++ [(st.counter, FutureState.pending)]) o
        = some FutureState.pending := by
      rw [alistGet_append_ne _ _ _ _ hone]
      exact hp
    have hfuts : (st.get p (some k)).futures
        = alistSet (st.futures ++ [(st.counter, FutureState.pending)]) o
            FutureState.cancelled := by
      simp only [ThrottleState.get, hd, hfut0, reduceIte]
    refine ⟨?_, ?_, ?_⟩
    · rw [hfuts]
      exact alistGet_set_eq _ _ _
    · rw [hfuts, alistGet_set_ne _ _ _ _ (by omega)]
      exact alistGet_append_self _ _ _ (fun q hq => by have := hwf q hq; omega)
    · intro c hco hcc
      rw [hfuts, alistGet_set_ne _ _ _ _ hco, alistGet_append_ne _ _ _ _ hcc]
  · intro st p k hnp hwf hwd c hcc
    cases hd : alistGet st.dedup k with
    | none =>
      have hfuts : (st.get p (some k)).futures
          = st.futures ++ [(st.counter, FutureState.pending)] := by
        simp only [ThrottleState.get, hd]
      rw [hfuts, alistGet_append_ne _ _ _ _ hcc]
    | some o =>
      have holt : o < st.counter := hwd (k, o) (alistGet_mem hd)
      have hnot : ¬ alistGet (st.futures ++ [(st.counter, FutureState.pending)]) o
          = some FutureState.pending := by
        rw [alistGet_append_ne _ _ _ _ (by omega)]
        exact hnp o hd
      have hfuts : (st.get p (some k)).futures
          = st.futures ++ [(st.counter, FutureState.pending)] := by
        simp only [ThrottleState.get, hd, if_neg hnot]
      rw [hfuts, alistGet_append_ne _ _ _ _ hcc]

theorem throttle_dedup_witness :
    alistGet ((ThrottleState.initial.get 1 (some 7)).get 2 (some 7)).futures 0
      = some FutureState.cancelled ∧
    alistGet ((ThrottleState.initial.get 1 (some 7)).get 2 (some 7)).futures 1
      = some FutureState.pending :=
  ⟨(throttle_dedup.1 (ThrottleState.initial.get 1 (some 7)) 2 7 0 rfl rfl
      (by decide)).1,
   (throttle_dedup.1 (ThrottleState.initial.get 1 (some 7)) 2 7 0 rfl rfl
      (by decide)).2.1⟩

end Arcam